import Mathlib

/-!
Verification of `examples/umbrella-sampling-pmf/umbrella-sampling-kldiverge.py`.

The script estimates a 1D PMF from umbrella-sampling data.  We shallowly embed
the script's arithmetic over `ℚ` (the script uses Python floats; the claims are
about the exact arithmetic the formulas denote).  Per-window data read from
disk (spring centers `chi0_k`, spring constants `K_k`, inverse temperatures
`beta_k`, samples `chi_kn`, energies `u_kn`, retained counts `N_k`) appear as
parameters of the embedded definitions.
-/

namespace UmbrellaKLDiverge

/-- Script constant `chi_min = -180.0` (line 61). -/
def chi_min : ℚ := -180

/-- Script constant `chi_max = +180.0` (line 62). -/
def chi_max : ℚ := 180

/-- Script constant `nbins = 40` (line 63). -/
def nbins : ℕ := 40

/-- Script constant `nsplines = 15` (line 64). -/
def nsplines : ℕ := 15

/-- Script constant `K = 26`, the number of umbrella windows (line 57). -/
def numK : ℕ := 26

/-- The ingestion loop `while(chi < -180.0): chi += 360.0` (lines 106-107). -/
def wrapUp (chi : ℚ) : ℚ :=
  if h : chi < -180 then wrapUp (chi + 360) else chi
termination_by (⌈((-180 : ℚ) - chi) / 360⌉).toNat
decreasing_by
  have hstep : ((-180 : ℚ) - (chi + 360)) / 360 = ((-180 : ℚ) - chi) / 360 - 1 := by
    ring
  have hpos : (0 : ℚ) < ((-180 : ℚ) - chi) / 360 := by
    have : (0 : ℚ) < (-180 : ℚ) - chi := by linarith
    positivity
  have hceil : 0 < ⌈((-180 : ℚ) - chi) / 360⌉ := Int.ceil_pos.mpr hpos
  have : ⌈((-180 : ℚ) - (chi + 360)) / 360⌉ = ⌈((-180 : ℚ) - chi) / 360⌉ - 1 := by
    rw [hstep]
    exact_mod_cast Int.ceil_sub_int (((-180 : ℚ) - chi) / 360) 1
  omega

/-- The ingestion loop `while(chi >= +180.0): chi -= 360.0` (lines 108-109). -/
def wrapDown (chi : ℚ) : ℚ :=
  if h : 180 ≤ chi then wrapDown (chi - 360) else chi
termination_by (⌊chi / 360⌋ + 1).toNat
decreasing_by
  have hstep : (chi - 360) / 360 = chi / 360 - 1 := by ring
  have hnn : (0 : ℚ) ≤ chi / 360 := by
    have : (0 : ℚ) ≤ chi := by linarith
    positivity
  have hfloor : 0 ≤ ⌊chi / 360⌋ := Int.floor_nonneg.mpr hnn
  have : ⌊(chi - 360) / 360⌋ = ⌊chi / 360⌋ - 1 := by
    rw [hstep]
    exact_mod_cast Int.floor_sub_int (chi / 360) 1
  omega

/-- Lines 106-109: canonicalisation of a parsed torsion angle into [-180, 180). -/
def chiWrap (chi : ℚ) : ℚ := wrapDown (wrapUp chi)

theorem wrapUp_ge (chi : ℚ) : -180 ≤ wrapUp chi := by
  induction chi using wrapUp.induct with
  | case1 chi h ih =>
    rw [wrapUp, dif_pos h]
    exact ih
  | case2 chi h =>
    rw [wrapUp, dif_neg h]
    linarith [not_lt.mp h]

theorem wrapDown_lt (chi : ℚ) : wrapDown chi < 180 := by
  induction chi using wrapDown.induct with
  | case1 chi h ih =>
    rw [wrapDown, dif_pos h]
    exact ih
  | case2 chi h =>
    rw [wrapDown, dif_neg h]
    linarith [not_le.mp h]

theorem wrapDown_ge (chi : ℚ) (hc : -180 ≤ chi) : -180 ≤ wrapDown chi := by
  induction chi using wrapDown.induct with
  | case1 chi h ih =>
    rw [wrapDown, dif_pos h]
    exact ih (by linarith)
  | case2 chi h =>
    rw [wrapDown, dif_neg h]
    exact hc

theorem chiWrap_mem (chi : ℚ) : -180 ≤ chiWrap chi ∧ chiWrap chi < 180 :=
  ⟨wrapDown_ge _ (wrapUp_ge chi), wrapDown_lt _⟩

/-- Stored reaction-coordinate samples: each parsed torsion value is wrapped at
line 110, and the subsampling step (line 149) keeps only values taken from the
already-wrapped prefix, at positions given by the decorrelation indices. -/
def chi_kn_stored (raw_chi : ℕ → ℕ → ℚ) (sidx : ℕ → ℕ → ℕ) (k n : ℕ) : ℚ :=
  chiWrap (raw_chi k (sidx k n))

/-- C5: for every finite input torsion value the wrapping loop terminates (the
embedded `chiWrap` is a total function defined by well-founded recursion), and
every stored sample `chi_kn[k][n]` with `n < N_k[k]` lies in [-180, 180). -/
theorem stored_samples_canonical (raw_chi : ℕ → ℕ → ℚ) (sidx : ℕ → ℕ → ℕ)
    (N_k : ℕ → ℕ) (k n : ℕ) (hn : n < N_k k) :
    -180 ≤ chi_kn_stored raw_chi sidx k n ∧ chi_kn_stored raw_chi sidx k n < 180 :=
  chiWrap_mem (raw_chi k (sidx k n))

theorem stored_samples_canonical_witness :
    0 < 1 ∧
      (-180 ≤ chi_kn_stored (fun _ _ => 500) (fun _ _ => 0) 0 0 ∧
        chi_kn_stored (fun _ _ => 500) (fun _ _ => 0) 0 0 < 180) :=
  ⟨by decide,
    stored_samples_canonical (fun _ _ => 500) (fun _ _ => 0) (fun _ => 1) 0 0 (by decide)⟩

/-- Line 181: `dchi = chi_kn[k,n] - chi0_k`, the deviation vector over all
bias windows `l` before the minimum-image correction. -/
def dchiRaw (chi_kn : ℕ → ℕ → ℚ) (chi0_k : ℕ → ℚ) (k n l : ℕ) : ℚ :=
  chi_kn k n - chi0_k l

/-- Lines 182-184: the in-place minimum-image correction of the `dchi` vector:
`if abs(dchi[l]) > 180: dchi[l] = 360 - abs(dchi[l])`. -/
def dchiWrapped (chi_kn : ℕ → ℕ → ℚ) (chi0_k : ℕ → ℚ) (k n l : ℕ) : ℚ :=
  if |dchiRaw chi_kn chi0_k k n l| > 180 then 360 - |dchiRaw chi_kn chi0_k k n l|
  else dchiRaw chi_kn chi0_k k n l

/-- Lines 152 and 178-187: the reduced-energy matrix.  The loop writes the
row `u_kln[k,:,n] = u_kn[k,n] + beta_k[k] * (K_k/2.0) * dchi**2` only for
`n < N_k[k]`; other entries keep the zero they were allocated with. -/
def u_kln (chi_kn u_kn : ℕ → ℕ → ℚ) (chi0_k K_k beta_k : ℕ → ℚ) (N_k : ℕ → ℕ)
    (k l n : ℕ) : ℚ :=
  if n < N_k k then
    u_kn k n + beta_k k * (K_k l / 2) * (dchiWrapped chi_kn chi0_k k n l) ^ 2
  else 0

/-- C1: every written entry of the reduced-energy matrix is the unbiased
reduced energy of the sample plus the harmonic bias
`beta_k[k] * (K_k[l]/2) * dchi^2`, where `dchi` is the coordinate deviation
from the bias window's center replaced by `360 - |dchi|` whenever
`|dchi| > 180`. -/
theorem u_kln_formula (chi_kn u_kn : ℕ → ℕ → ℚ) (chi0_k K_k beta_k : ℕ → ℚ)
    (N_k : ℕ → ℕ) (k l n : ℕ) (hk : k < numK) (hl : l < numK) (hn : n < N_k k) :
    u_kln chi_kn u_kn chi0_k K_k beta_k N_k k l n =
      u_kn k n + beta_k k * (K_k l / 2) *
        (if |chi_kn k n - chi0_k l| > 180 then 360 - |chi_kn k n - chi0_k l|
         else chi_kn k n - chi0_k l) ^ 2 := by
  simp [u_kln, dchiWrapped, dchiRaw, hn]

theorem u_kln_formula_witness :
    0 < numK ∧ 0 < 1 ∧
      u_kln (fun _ _ => 200) (fun _ _ => 7) (fun _ => -170) (fun _ => 2) (fun _ => 3)
          (fun _ => 1) 0 0 0 =
        7 + 3 * (2 / 2 : ℚ) *
          (if |(200 : ℚ) - -170| > 180 then 360 - |(200 : ℚ) - -170|
           else (200 : ℚ) - -170) ^ 2 :=
  ⟨by decide, by decide,
    u_kln_formula (fun _ _ => 200) (fun _ _ => 7) (fun _ => -170) (fun _ => 2)
      (fun _ => 3) (fun _ => 1) 0 0 0 (by decide) (by decide) (by decide)⟩

/-- C3: two windows with identical bias parameters receive identical matrix
entries: the wrap depends only on the center, and the prefactor of row `k`
uses `beta_k[k]` for every `l`, so equal centers and spring constants give
`u_kln[k][l][n] = u_kln[k][k][n]`. -/
theorem u_kln_equal_params (chi_kn u_kn : ℕ → ℕ → ℚ) (chi0_k K_k beta_k : ℕ → ℚ)
    (N_k : ℕ → ℕ) (k l n : ℕ) (hk : k < numK) (hl : l < numK)
    (hchi : chi0_k k = chi0_k l) (hK : K_k k = K_k l) (hn : n < N_k k) :
    u_kln chi_kn u_kn chi0_k K_k beta_k N_k k l n =
      u_kln chi_kn u_kn chi0_k K_k beta_k N_k k k n := by
  simp only [u_kln, dchiWrapped, dchiRaw, if_pos hn, ← hchi, ← hK]

theorem u_kln_equal_params_witness :
    0 < numK ∧ 1 < numK ∧ (5 : ℚ) = 5 ∧ (2 : ℚ) = 2 ∧ 0 < 1 ∧
      u_kln (fun _ _ => 30) (fun _ _ => 1) (fun _ => 5) (fun _ => 2) (fun _ => 3)
          (fun _ => 1) 0 1 0 =
        u_kln (fun _ _ => 30) (fun _ _ => 1) (fun _ => 5) (fun _ => 2) (fun _ => 3)
          (fun _ => 1) 0 0 0 :=
  ⟨by decide, by decide, rfl, rfl, by decide,
    u_kln_equal_params (fun _ _ => 30) (fun _ _ => 1) (fun _ => 5) (fun _ => 2)
      (fun _ => 3) (fun _ => 1) 0 1 0 (by decide) (by decide) rfl rfl (by decide)⟩

/-- Lines 194-199: the standalone bias potential.  The conditional is
vectorised through the boolean mask `i = fabs(dchi) > 180`, and the result is
`beta_k[k] * (K_k[k]/2) * dchi**2` — note the bias window's own inverse
temperature `beta_k[k]`. -/
def bias_potential (chi0_k K_k beta_k : ℕ → ℚ) (x : ℚ) (k : ℕ) : ℚ :=
  let dchi := x - chi0_k k
  let i : ℚ := if |dchi| > 180 then 1 else 0
  let dchi2 := i * (360 - |dchi|) + (1 - i) * dchi
  beta_k k * (K_k k / 2) * dchi2 ^ 2

/-- C2 counterexample: with per-window inverse temperatures `beta_k = [1, 2]`
(all centers 0, spring constants 2, one sample with coordinate 1 and unbiased
energy 0), the matrix build adds `beta_k[0] * (K_k[1]/2) * 1 = 1` to entry
`u_kln[0][1][0]`, while `bias_potential(1, 1) = beta_k[1] * (K_k[1]/2) * 1 = 2`:
the inline bias and the standalone bias-function list disagree. -/
theorem u_kln_bias_mismatch_counterexample :
    u_kln (fun _ _ => 1) (fun _ _ => 0) (fun _ => 0) (fun _ => 2)
        (fun l => if l = 0 then 1 else 2) (fun _ => 1) 0 1 0 -
      (fun _ _ => (0 : ℚ)) 0 0 ≠
    bias_potential (fun _ => 0) (fun _ => 2) (fun l => if l = 0 then 1 else 2) 1 1 := by
  norm_num [u_kln, dchiWrapped, dchiRaw, bias_potential, abs]

/-- C2 amended: whenever the sample window and the bias window have equal
inverse temperatures (`beta_k[k] = beta_k[l]`, in particular in every
single-temperature run), the inline bias in the matrix build agrees with the
standalone bias-potential function:
`u_kln[k][l][n] - u_kn[k][n] = bias_potential(chi_kn[k][n], l)`. -/
theorem u_kln_bias_agree (chi_kn u_kn : ℕ → ℕ → ℚ) (chi0_k K_k beta_k : ℕ → ℚ)
    (N_k : ℕ → ℕ) (k l n : ℕ) (hb : beta_k k = beta_k l) (hn : n < N_k k) :
    u_kln chi_kn u_kn chi0_k K_k beta_k N_k k l n - u_kn k n =
      bias_potential chi0_k K_k beta_k (chi_kn k n) l := by
  simp only [u_kln, dchiWrapped, dchiRaw, bias_potential, if_pos hn, hb]
  split_ifs <;> ring

theorem u_kln_bias_agree_witness :
    (3 : ℚ) = 3 ∧ 0 < 1 ∧
      u_kln (fun _ _ => 30) (fun _ _ => 4) (fun _ => 5) (fun _ => 2) (fun _ => 3)
          (fun _ => 1) 0 1 0 - 4 =
        bias_potential (fun _ => 5) (fun _ => 2) (fun _ => 3) 30 1 :=
  ⟨rfl, by decide,
    u_kln_bias_agree (fun _ _ => 30) (fun _ _ => 4) (fun _ => 5) (fun _ => 2)
      (fun _ => 3) (fun _ => 1) 0 1 0 rfl (by decide)⟩

/-- Line 249: the list of per-window bias closures,
`[(lambda x, klocal=k: bias_potential(x,klocal)) for k in range(K)]`: the
default argument `klocal=k` is evaluated when each lambda is created, so the
`k`-th element closes over the value `k`. -/
def fkbias (chi0_k K_k beta_k : ℕ → ℚ) : List (ℚ → ℚ) :=
  (List.range numK).map (fun k => fun x => bias_potential chi0_k K_k beta_k x k)

/-- C6: each element of the bias-closure list captures its own window index by
value: for every `k < K` and every coordinate `x`, the `k`-th element applied
to `x` is `bias_potential(x, k)`, not the last window's bias. -/
theorem fkbias_captures_index (chi0_k K_k beta_k : ℕ → ℚ) (k : ℕ) (hk : k < numK)
    (x : ℚ) :
    (fkbias chi0_k K_k beta_k).getD k (fun _ => 0) x =
      bias_potential chi0_k K_k beta_k x k := by
  simp [fkbias, List.getD, hk]

theorem fkbias_captures_index_witness :
    0 < numK ∧
      (fkbias (fun _ => 5) (fun _ => 2) (fun _ => 3)).getD 0 (fun _ => 0) 30 =
        bias_potential (fun _ => 5) (fun _ => 2) (fun _ => 3) 30 0 :=
  ⟨by decide,
    fkbias_captures_index (fun _ => 5) (fun _ => 2) (fun _ => 3) 0 (by decide) 30⟩

/-- `np.linspace(a, b, m)`: `m` evenly spaced points from `a` to `b`
inclusive, point `i` being `a + i * (b - a) / (m - 1)`. -/
def linspace (a b : ℚ) (m : ℕ) : List ℚ :=
  (List.range m).map (fun i : ℕ => a + (i : ℚ) * ((b - a) / ((m : ℚ) - 1)))

/-- Line 161: `bin_edges = np.linspace(chi_min, chi_max, nbins+1)`. -/
def bin_edges : List ℚ := linspace chi_min chi_max (nbins + 1)

/-- Lines 160-163: `bin_center_i[i] = 0.5*(bin_edges[i] + bin_edges[i+1])`. -/
def bin_center_i : List ℚ :=
  (List.range nbins).map (fun i => (1 / 2 : ℚ) * (bin_edges.getD i 0 + bin_edges.getD (i + 1) 0))

theorem getD_map_range (f : ℕ → ℚ) (m i : ℕ) (h : i < m) :
    ((List.range m).map f).getD i 0 = f i := by
  have hlen : i < ((List.range m).map f).length := by simpa using h
  rw [List.getD_eq_getElem _ _ hlen, List.getElem_map, List.getElem_range]

theorem linspace_getD (a b : ℚ) (m i : ℕ) (h : i < m) :
    (linspace a b m).getD i 0 = a + i * ((b - a) / ((m : ℚ) - 1)) := by
  rw [linspace]
  exact getD_map_range _ m i h

/-- C7: the bin grid has `nbins + 1` edges equally spaced from `chi_min` to
`chi_max` — every cell has width `(chi_max - chi_min) / nbins` and the edges
strictly increase — and each reported center is the midpoint of its cell's two
edges. -/
theorem bin_grid_spec (i : ℕ) (h : i < nbins) :
    bin_edges.getD (i + 1) 0 - bin_edges.getD i 0 = (chi_max - chi_min) / nbins ∧
      bin_edges.getD i 0 < bin_edges.getD (i + 1) 0 ∧
      bin_center_i.getD i 0 = (bin_edges.getD i 0 + bin_edges.getD (i + 1) 0) / 2 := by
  have h1 : i < nbins + 1 := Nat.lt_succ_of_lt h
  have h2 : i + 1 < nbins + 1 := Nat.succ_lt_succ h
  have e1 : bin_edges.getD i 0 =
      chi_min + i * ((chi_max - chi_min) / (((nbins + 1 : ℕ) : ℚ) - 1)) :=
    linspace_getD chi_min chi_max (nbins + 1) i h1
  have e2 : bin_edges.getD (i + 1) 0 =
      chi_min + ((i + 1 : ℕ) : ℚ) * ((chi_max - chi_min) / (((nbins + 1 : ℕ) : ℚ) - 1)) :=
    linspace_getD chi_min chi_max (nbins + 1) (i + 1) h2
  refine ⟨?_, ?_, ?_⟩
  · rw [e1, e2]
    simp only [chi_min, chi_max, nbins]
    push_cast
    ring
  · rw [e1, e2]
    simp only [chi_min, chi_max, nbins]
    push_cast
    norm_num
  · rw [bin_center_i, getD_map_range _ _ _ h]
    ring

theorem bin_grid_spec_witness :
    0 < nbins ∧
      (bin_edges.getD 1 0 - bin_edges.getD 0 0 = (chi_max - chi_min) / nbins ∧
        bin_edges.getD 0 0 < bin_edges.getD 1 0 ∧
        bin_center_i.getD 0 0 = (bin_edges.getD 0 0 + bin_edges.getD 1 0) / 2) :=
  ⟨by decide, bin_grid_spec 0 (by decide)⟩

/-- The Python string 'kde' as a character list. -/
def kdeChars : List Char := ['k', 'd', 'e']

/-- The Python string 'kl' (prefix tested at line 226/228). -/
def klChars : List Char := ['k', 'l']

/-- The Python string 'sumkl' (prefix tested at line 226/230). -/
def sumklChars : List Char := ['s', 'u', 'm', 'k', 'l']

/-- The Python string 'weighted' (prefix tested at line 226/232). -/
def weightedChars : List Char := ['w', 'e', 'i', 'g', 'h', 't', 'e', 'd']

/-- The Python string 'simple' (prefix tested at line 226/234). -/
def simpleChars : List Char := ['s', 'i', 'm', 'p', 'l', 'e']

/-- The Python string 'simple-3'. -/
def simple3Chars : List Char := ['s', 'i', 'm', 'p', 'l', 'e', '-', '3']

/-- Line 17: `methods = ['kde','simple-3']`. -/
def methodsList : List (List Char) := [kdeChars, simple3Chars]

/-- Line 226: the guard `method[:2] == 'kl' or method[:5] == 'sumkl' or
method[:8] == 'weighted' or method[:6] == 'simple'` (Python slicing truncates,
so the comparison is against the first so-many characters). -/
def isSplineMethod (m : List Char) : Bool :=
  m.take 2 == klChars || m.take 5 == sumklChars ||
    m.take 8 == weightedChars || m.take 6 == simpleChars

/-- The four divergence-weight schemes written to
`spline_parameters['spline_weights']` at lines 228-235. -/
inductive SplineWeights where
  | kldivergence
  | sumkldivergence
  | weightedsum
  | simplesum
deriving DecidableEq

/-- Lines 228-235: the sequence of independent `if` statements selecting the
scheme, modelled as successive overwrites of an initially absent value. -/
def splineWeightsOf (m : List Char) : Option SplineWeights :=
  let w : Option SplineWeights := none
  let w := if m.take 2 == klChars then some SplineWeights.kldivergence else w
  let w := if m.take 5 == sumklChars then some SplineWeights.sumkldivergence else w
  let w := if m.take 8 == weightedChars then some SplineWeights.weightedsum else w
  if m.take 6 == simpleChars then some SplineWeights.simplesum else w

/-- Modelled Python `int` applied to the one-character string `method[-1]`
(line 251): a decimal digit character '0'..'9' (code points 48-57) parses to
its value; any other character raises ValueError. -/
def pyIntOfChar (c : Char) : Option ℕ :=
  if 48 ≤ c.toNat ∧ c.toNat ≤ 57 then some (c.toNat - 48) else none

/-- Python exceptions the method loop can raise while building
`spline_parameters`: `int(method[-1])` raises ValueError on a non-digit, and
`method[-1]` itself raises IndexError on an empty name. -/
inductive PyErr where
  | valueError
  | indexError
deriving DecidableEq

/-- Line 205: `xstart = np.linspace(chi_min, chi_max, nsplines*2)`. -/
def xstart : List ℚ := linspace chi_min chi_max (nsplines * 2)

/-- The `spline_parameters` dictionary built at lines 227-253, one field per
key (`spline_init` stands for the dict key 'spline_initialize'). -/
structure SplineParams where
  spline_weights : Option SplineWeights
  nspline : ℕ
  spline_init : String
  xinit : List ℚ
  yinit : List ℚ
  xrange : List ℚ
  fkbias : List (ℚ → ℚ)
  kdegree : ℕ
  optimization_algorithm : String

/-- The loop-carried globals the later claims read: `f_i_kde` (line 204, None
until the kde branch stores the KDE profile at lines 222-224) and
`spline_parameters` (unbound until first written at line 227). -/
structure LoopState where
  f_i_kde : Option (List ℚ)
  spline_parameters : Option SplineParams

/-- The state entering the method loop (lines 204-207). -/
def initState : LoopState := { f_i_kde := none, spline_parameters := none }

/-- The kde branch (lines 216-224) as it affects the loop state: store the KDE
profile `results['f_i']` (abstracted as `fkde`) returned by
`pmf.getPMF(xstart, uncertainties='from-lowest')`. -/
def kdeStep (fkde : List ℚ) (st : LoopState) (m : List Char) : LoopState :=
  if m == kdeChars then { st with f_i_kde := some fkde } else st

/-- The spline branch (lines 226-254) as it affects the loop state: rebuild
`spline_parameters` from scratch, with yinit falling back to
`np.zeros(len(xstart))` when `f_i_kde is None` (lines 240-245); the call
`int(method[-1])` at line 251 raises before `generatePMF` runs when the last
character is not a digit.  `fns` stands for the closure list of line 249. -/
def splineStep (fns : List (ℚ → ℚ)) (st : LoopState) (m : List Char) :
    Except PyErr LoopState :=
  if isSplineMethod m then
    match m.getLast? with
    | none => Except.error PyErr.indexError
    | some c =>
      match pyIntOfChar c with
      | none => Except.error PyErr.valueError
      | some d =>
        Except.ok { st with spline_parameters := some {
          spline_weights := splineWeightsOf m
          nspline := nsplines
          spline_init := "explicit"
          xinit := xstart
          yinit := st.f_i_kde.getD (List.replicate xstart.length 0)
          xrange := [chi_min, chi_max]
          fkbias := fns
          kdegree := d
          optimization_algorithm := "Custom-NR" } }
  else Except.ok st

/-- One iteration of the method loop (lines 207-257) restricted to the state
the later claims read: the kde branch runs first, then the spline branch. -/
def methodStep (fkde : List ℚ) (fns : List (ℚ → ℚ)) (st : LoopState)
    (m : List Char) : Except PyErr LoopState :=
  splineStep fns (kdeStep fkde st m) m

/-- The method loop `for method in methods:` (line 207): iterate `methodStep`;
an uncaught exception aborts the run. -/
def runLoop (fkde : List ℚ) (fns : List (ℚ → ℚ)) (st : LoopState) :
    List (List Char) → Except PyErr LoopState
  | [] => Except.ok st
  | m :: ms =>
    match methodStep fkde fns st m with
    | Except.ok st1 => runLoop fkde fns st1 ms
    | Except.error e => Except.error e

/-- Lines 291-293: the `spline_parameters` global handed to
`pmf.SampleDistribution` after the loop over the configured `methodsList`. -/
def samplerSplineParams (fkde : List ℚ) (fns : List (ℚ → ℚ)) :
    Option SplineParams :=
  match runLoop fkde fns initState methodsList with
  | Except.ok st => st.spline_parameters
  | Except.error _ => none

/-- C4: with the configured `methods = ['kde','simple-3']`, the
spline_parameters value reaching `SampleDistribution` is exactly the
dictionary last written inside the loop — it carries the last spline method's
scheme, `spline_weights = 'simplesum'` and `kdegree = 3` (and the yinit seeded
from the kde run), not a scheme tied to an explicitly chosen fit. -/
theorem sampler_uses_last_written_params (fkde : List ℚ) (fns : List (ℚ → ℚ)) :
    ∃ p : SplineParams, samplerSplineParams fkde fns = some p ∧
      p.spline_weights = some SplineWeights.simplesum ∧ p.kdegree = 3 ∧
      p.yinit = fkde :=
  ⟨_, rfl, rfl, rfl, rfl⟩

theorem xstart_length : xstart.length = 2 * nsplines := by
  rw [xstart, linspace, List.length_map, List.length_range, Nat.mul_comm]

theorem kdeStep_f_i_kde (fkde : List ℚ) (st : LoopState) (m : List Char) :
    (kdeStep fkde st m).f_i_kde =
      if m = kdeChars then some fkde else st.f_i_kde := by
  rw [kdeStep]
  by_cases hm : m = kdeChars
  · rw [if_pos (by simpa using hm), if_pos hm]
  · rw [if_neg (by simpa using hm), if_neg hm]

theorem splineStep_ok (fns : List (ℚ → ℚ)) (st : LoopState) (m : List Char)
    (c : Char) (d : ℕ) (hsp : isSplineMethod m = true)
    (hlast : m.getLast? = some c) (hd : pyIntOfChar c = some d) :
    splineStep fns st m = Except.ok { st with spline_parameters := some {
      spline_weights := splineWeightsOf m
      nspline := nsplines
      spline_init := "explicit"
      xinit := xstart
      yinit := st.f_i_kde.getD (List.replicate xstart.length 0)
      xrange := [chi_min, chi_max]
      fkbias := fns
      kdegree := d
      optimization_algorithm := "Custom-NR" } } := by
  rw [splineStep, if_pos hsp]
  simp only [hlast, hd]

theorem splineStep_err (fns : List (ℚ → ℚ)) (st : LoopState) (m : List Char)
    (c : Char) (hsp : isSplineMethod m = true)
    (hlast : m.getLast? = some c) (hd : pyIntOfChar c = none) :
    splineStep fns st m = Except.error PyErr.valueError := by
  rw [splineStep, if_pos hsp]
  simp only [hlast, hd]

theorem splineStep_preserves_f_i_kde (fns : List (ℚ → ℚ)) (st st' : LoopState)
    (m : List Char) (h : splineStep fns st m = Except.ok st') :
    st'.f_i_kde = st.f_i_kde := by
  rw [splineStep] at h
  split at h
  · split at h
    · exact absurd h (by simp)
    · split at h
      · exact absurd h (by simp)
      · cases h
        rfl
  · cases h
    rfl

theorem methodStep_f_i_kde (fkde : List ℚ) (fns : List (ℚ → ℚ))
    (st st' : LoopState) (m : List Char)
    (h : methodStep fkde fns st m = Except.ok st') :
    st'.f_i_kde = if m = kdeChars then some fkde else st.f_i_kde := by
  rw [methodStep] at h
  rw [splineStep_preserves_f_i_kde fns _ st' m h, kdeStep_f_i_kde]

theorem runLoop_f_i_kde (fkde : List ℚ) (fns : List (ℚ → ℚ))
    (ms : List (List Char)) :
    ∀ st0 st : LoopState, runLoop fkde fns st0 ms = Except.ok st →
      st.f_i_kde = if kdeChars ∈ ms then some fkde else st0.f_i_kde := by
  induction ms with
  | nil =>
    intro st0 st h
    rw [runLoop] at h
    cases h
    simp
  | cons m ms ih =>
    intro st0 st h
    rw [runLoop] at h
    cases hstep : methodStep fkde fns st0 m with
    | error e => rw [hstep] at h; exact absurd h (by simp)
    | ok s1 =>
      rw [hstep] at h
      have h1 := ih s1 st h
      have h2 := methodStep_f_i_kde fkde fns st0 s1 m hstep
      by_cases hmem : kdeChars ∈ ms
      · rw [if_pos hmem] at h1
        rw [h1, if_pos (List.mem_cons.mpr (Or.inr hmem))]
      · rw [if_neg hmem] at h1
        by_cases hm : m = kdeChars
        · rw [if_pos hm] at h2
          rw [h1, h2, if_pos (List.mem_cons.mpr (Or.inl hm.symm))]
        · rw [if_neg hm] at h2
          have hnot : kdeChars ∉ m :: ms := by
            rw [List.mem_cons]
            rintro (hx | hx)
            · exact hm hx.symm
            · exact hmem hx
          rw [h1, h2, if_neg hnot]

theorem isSplineMethod_ne_kde (m : List Char) (hsp : isSplineMethod m = true) :
    m ≠ kdeChars := by
  intro hm
  rw [hm] at hsp
  exact absurd hsp (by decide)

/-- C8: the spline fit's initial guess falls back silently: when a
spline-family method is reached after the loop has processed a prefix `pre` of
the methods list, the initialization vector yinit written into
spline_parameters is the all-zeros vector of length `2*nsplines` if no 'kde'
method occurs in `pre`, and is the stored KDE profile (taken at the
`2*nsplines` points `xstart` with uncertainties 'from-lowest') if one does. -/
theorem yinit_kde_fallback (fkde : List ℚ) (fns : List (ℚ → ℚ))
    (pre : List (List Char)) (m : List Char) (st : LoopState) (c : Char) (d : ℕ)
    (hpre : runLoop fkde fns initState pre = Except.ok st)
    (hsp : isSplineMethod m = true)
    (hlast : m.getLast? = some c) (hd : pyIntOfChar c = some d) :
    ∃ p : SplineParams,
      methodStep fkde fns st m = Except.ok { st with spline_parameters := some p } ∧
        p.yinit = if kdeChars ∈ pre then fkde
          else List.replicate (2 * nsplines) 0 := by
  have hne := isSplineMethod_ne_kde m hsp
  have hkde : kdeStep fkde st m = st := by
    rw [kdeStep, if_neg (by simpa using hne)]
  rw [methodStep, hkde, splineStep_ok fns st m c d hsp hlast hd]
  refine ⟨_, rfl, ?_⟩
  have hfi := runLoop_f_i_kde fkde fns pre initState st hpre
  by_cases hmem : kdeChars ∈ pre
  · rw [if_pos hmem] at hfi
    simp [hfi, hmem]
  · rw [if_neg hmem] at hfi
    simp only [initState] at hfi
    simp [hfi, hmem, xstart_length]

theorem yinit_kde_fallback_witness :
    (runLoop [] [] initState [] = Except.ok initState ∧
      isSplineMethod simple3Chars = true ∧
      simple3Chars.getLast? = some '3' ∧ pyIntOfChar '3' = some 3) ∧
    (∃ p : SplineParams,
      methodStep [] [] initState simple3Chars =
        Except.ok { initState with spline_parameters := some p } ∧
        p.yinit = if kdeChars ∈ ([] : List (List Char)) then []
          else List.replicate (2 * nsplines) 0) :=
  ⟨⟨rfl, by decide, rfl, rfl⟩,
    yinit_kde_fallback [] [] [] simple3Chars initState '3' 3 rfl (by decide) rfl rfl⟩

/-- C9: for every spline-family method the degree handed to the fit is the
numeric value of the method name's final character — hence only the
single-digit degrees 0..9 are expressible — and a final character that is not
a decimal digit raises ValueError at line 251, aborting the run before
`generatePMF` is called, rather than fitting with a default degree. -/
theorem kdegree_from_last_char (fkde : List ℚ) (fns : List (ℚ → ℚ))
    (st : LoopState) (m : List Char) (c : Char)
    (hsp : isSplineMethod m = true) (hlast : m.getLast? = some c) :
    (∀ d : ℕ, pyIntOfChar c = some d →
      d ≤ 9 ∧ ∃ p : SplineParams,
        methodStep fkde fns st m =
          Except.ok { st with spline_parameters := some p } ∧ p.kdegree = d) ∧
    (pyIntOfChar c = none →
      methodStep fkde fns st m = Except.error PyErr.valueError ∧
        ∀ rest : List (List Char),
          runLoop fkde fns st (m :: rest) = Except.error PyErr.valueError) := by
  have hne := isSplineMethod_ne_kde m hsp
  have hkde : kdeStep fkde st m = st := by
    rw [kdeStep, if_neg (by simpa using hne)]
  constructor
  · intro d hd
    constructor
    · rw [pyIntOfChar] at hd
      split at hd
      · cases hd
        omega
      · exact absurd hd (by simp)
    · rw [methodStep, hkde, splineStep_ok fns st m c d hsp hlast hd]
      exact ⟨_, rfl, rfl⟩
  · intro hd
    have hstep : methodStep fkde fns st m = Except.error PyErr.valueError := by
      rw [methodStep, hkde, splineStep_err fns st m c hsp hlast hd]
    refine ⟨hstep, fun rest => ?_⟩
    rw [runLoop, hstep]

theorem kdegree_from_last_char_witness :
    (isSplineMethod simple3Chars = true ∧ simple3Chars.getLast? = some '3' ∧
      pyIntOfChar '3' = some 3 ∧
      (3 ≤ 9 ∧ ∃ p : SplineParams,
        methodStep [] [] initState simple3Chars =
          Except.ok { initState with spline_parameters := some p } ∧
          p.kdegree = 3)) ∧
    (isSplineMethod ['k', 'l', '-', 'x'] = true ∧
      (['k', 'l', '-', 'x'] : List Char).getLast? = some 'x' ∧
      pyIntOfChar 'x' = none ∧
      runLoop [] [] initState [['k', 'l', '-', 'x']] =
        Except.error PyErr.valueError) :=
  ⟨⟨by decide, rfl, rfl,
    (kdegree_from_last_char [] [] initState simple3Chars '3' (by decide) rfl).1 3 rfl⟩,
   ⟨by decide, rfl, rfl,
    ((kdegree_from_last_char [] [] initState ['k', 'l', '-', 'x'] 'x'
      (by decide) rfl).2 rfl).2 []⟩⟩

/-- Lines 71 and 115-129: the energy array as ingestion leaves it — each
window `k` writes its recorded reduced energies `e k n` into the first `M k`
slots of a zero-allocated row of width N_max; slots beyond the read count keep
their zero. -/
def u_kn_read (M : ℕ → ℕ) (e : ℕ → ℕ → ℚ) (k n : ℕ) : ℚ :=
  if n < M k then e k n else 0

/-- Line 148: the decorrelation subsample
`u_kn[k,0:N_k[k]] = u_kn[k,indices]` overwrites the first `L k` slots with the
values found at the decorrelation indices `sidx k`; slots at and beyond `L k`
keep whatever ingestion left there (stale recorded energies up to `M k`,
zeros beyond). -/
def u_kn_sub (M : ℕ → ℕ) (e : ℕ → ℕ → ℚ) (L : ℕ → ℕ) (sidx : ℕ → ℕ → ℕ)
    (k n : ℕ) : ℚ :=
  if n < L k then u_kn_read M e k (sidx k n) else u_kn_read M e k n

/-- All entries of a `K0 × Nmax` array, row-major. -/
def matEntries (f : ℕ → ℕ → ℚ) (K0 Nmax : ℕ) : List ℚ :=
  ((List.range K0).map (fun k => (List.range Nmax).map (fun n => f k n))).flatten

/-- `np.min` of a sequence of values (0 for the empty sequence, which numpy
rejects; all uses below are nonempty). -/
def listMin : List ℚ → ℚ
  | [] => 0
  | [a] => a
  | a :: b :: rest => min a (listMin (b :: rest))

/-- Line 155: the single global constant `u_kn.min()`, the minimum over the
entire padded `K × N_max` array (the Python rebinding `N_max = np.max(N_k)` at
line 151 does not resize the already-allocated array, so the minimum runs over
the full allocated width). -/
def matMin (f : ℕ → ℕ → ℚ) (K0 Nmax : ℕ) : ℚ := listMin (matEntries f K0 Nmax)

/-- Line 155: `u_kn -= u_kn.min()`. -/
def u_kn_shift (M : ℕ → ℕ) (e : ℕ → ℕ → ℚ) (L : ℕ → ℕ) (sidx : ℕ → ℕ → ℕ)
    (K0 Nmax : ℕ) (k n : ℕ) : ℚ :=
  u_kn_sub M e L sidx k n - matMin (u_kn_sub M e L sidx) K0 Nmax

theorem listMin_le : ∀ (l : List ℚ) (x : ℚ), x ∈ l → listMin l ≤ x := by
  intro l
  induction l with
  | nil => intro x hx; exact absurd hx (List.not_mem_nil x)
  | cons a rest ih =>
    intro x hx
    rw [List.mem_cons] at hx
    cases rest with
    | nil =>
      rcases hx with hx | hx
      · rw [hx]; simp [listMin]
      · exact absurd hx (List.not_mem_nil x)
    | cons b rest2 =>
      rcases hx with hx | hx
      · rw [hx]; simp only [listMin]; exact min_le_left _ _
      · exact le_trans (by simp only [listMin]; exact min_le_right _ _) (ih x hx)

theorem listMin_mem : ∀ l : List ℚ, l ≠ [] → listMin l ∈ l := by
  intro l
  induction l with
  | nil => intro h; exact absurd rfl h
  | cons a rest ih =>
    intro _
    cases rest with
    | nil => simp [listMin]
    | cons b rest2 =>
      simp only [listMin]
      rcases le_total a (listMin (b :: rest2)) with h | h
      · rw [min_eq_left h]; exact List.mem_cons_self a _
      · rw [min_eq_right h]
        exact List.mem_cons_of_mem a (ih (by simp))

theorem mem_matEntries (f : ℕ → ℕ → ℚ) (K0 Nmax k n : ℕ) (hk : k < K0)
    (hn : n < Nmax) : f k n ∈ matEntries f K0 Nmax := by
  rw [matEntries, List.mem_flatten]
  exact ⟨(List.range Nmax).map (fun n => f k n),
    List.mem_map.mpr ⟨k, List.mem_range.mpr hk, rfl⟩,
    List.mem_map.mpr ⟨n, List.mem_range.mpr hn, rfl⟩⟩

theorem matEntries_exists (f : ℕ → ℕ → ℚ) (K0 Nmax : ℕ) (x : ℚ)
    (hx : x ∈ matEntries f K0 Nmax) :
    ∃ k, k < K0 ∧ ∃ n, n < Nmax ∧ f k n = x := by
  rw [matEntries, List.mem_flatten] at hx
  obtain ⟨row, hrow, hxrow⟩ := hx
  obtain ⟨k, hk, rfl⟩ := List.mem_map.mp hrow
  obtain ⟨n, hn, hfx⟩ := List.mem_map.mp hxrow
  exact ⟨k, List.mem_range.mp hk, n, List.mem_range.mp hn, hfx⟩

/-- C10 counterexample: one window, one allocated slot, one recorded energy 5
(retained by an identity subsample).  The code subtracts `u_kn.min() = 5`,
whereas the claimed constant `min(0, smallest recorded energy)` is 0: the
fully-written array has no zero padding entry, so the claimed formula fails. -/
theorem rezero_min0_counterexample :
    matMin (u_kn_sub (fun _ => 1) (fun _ _ => 5) (fun _ => 1) (fun _ _ => 0)) 1 1 = 5 ∧
      min (0 : ℚ) 5 = 0 ∧ (5 : ℚ) ≠ 0 := by
  refine ⟨?_, by norm_num, by norm_num⟩
  rfl

/-- C10 amended: the pre-analysis rezeroing subtracts one global constant,
`u_kn.min()`, the minimum over the entire padded `K × N_max` array (whose
entries are the retained subsampled energies, stale pre-subsample energies
between the retained and read counts, and the zeros beyond each window's read
count); after the shift every entry is nonnegative, the minimum entry is
exactly 0, and every pairwise difference of entries is unchanged. -/
theorem rezero_spec (M : ℕ → ℕ) (e : ℕ → ℕ → ℚ) (L : ℕ → ℕ) (sidx : ℕ → ℕ → ℕ)
    (K0 Nmax : ℕ) (hK : 0 < K0) (hN : 0 < Nmax) :
    (∀ k n, k < K0 → n < Nmax → 0 ≤ u_kn_shift M e L sidx K0 Nmax k n) ∧
      (∃ k, k < K0 ∧ ∃ n, n < Nmax ∧ u_kn_shift M e L sidx K0 Nmax k n = 0) ∧
      (∀ k n k' n',
        u_kn_shift M e L sidx K0 Nmax k n - u_kn_shift M e L sidx K0 Nmax k' n' =
          u_kn_sub M e L sidx k n - u_kn_sub M e L sidx k' n') := by
  refine ⟨?_, ?_, ?_⟩
  · intro k n hk hn
    have hle := listMin_le _ _ (mem_matEntries (u_kn_sub M e L sidx) K0 Nmax k n hk hn)
    rw [u_kn_shift]
    rw [matMin]
    linarith
  · have hne : matEntries (u_kn_sub M e L sidx) K0 Nmax ≠ [] :=
      List.ne_nil_of_mem (mem_matEntries (u_kn_sub M e L sidx) K0 Nmax 0 0 hK hN)
    obtain ⟨k, hk, n, hn, hfx⟩ :=
      matEntries_exists (u_kn_sub M e L sidx) K0 Nmax _ (listMin_mem _ hne)
    refine ⟨k, hk, n, hn, ?_⟩
    rw [u_kn_shift, matMin, hfx, sub_self]
  · intro k n k' n'
    rw [u_kn_shift, u_kn_shift]
    ring

theorem rezero_spec_witness :
    0 < 1 ∧
      ((∀ k n, k < 1 → n < 1 →
          0 ≤ u_kn_shift (fun _ => 1) (fun _ _ => 5) (fun _ => 1) (fun _ _ => 0) 1 1 k n) ∧
        (∃ k, k < 1 ∧ ∃ n, n < 1 ∧
          u_kn_shift (fun _ => 1) (fun _ _ => 5) (fun _ => 1) (fun _ _ => 0) 1 1 k n = 0) ∧
        (∀ k n k' n',
          u_kn_shift (fun _ => 1) (fun _ _ => 5) (fun _ => 1) (fun _ _ => 0) 1 1 k n -
              u_kn_shift (fun _ => 1) (fun _ _ => 5) (fun _ => 1) (fun _ _ => 0) 1 1 k' n' =
            u_kn_sub (fun _ => 1) (fun _ _ => 5) (fun _ => 1) (fun _ _ => 0) k n -
              u_kn_sub (fun _ => 1) (fun _ _ => 5) (fun _ => 1) (fun _ _ => 0) k' n')) :=
  ⟨by decide,
    rezero_spec (fun _ => 1) (fun _ _ => 5) (fun _ => 1) (fun _ _ => 0) 1 1
      (by decide) (by decide)⟩

end UmbrellaKLDiverge
